import Mathlib

/-!
Verification of the PPMLAC two-party masked protocol from MP-SPDZ
(`Protocols/PPMLAC_protocol.h`, `Protocols/PPMLAC_prep.h`,
`Protocols/PPMLAC_share.h`), as a shallow embedding.

Clear values (`T::clear`, instantiated at `gfp` or `gf2n` in
`PPMLAC_party.cpp`) are modelled by a commutative ring `R`; witnesses are
evaluated at `ZMod 97`.  A `PPMLACShare` wraps a single clear value, so
shares are identified with their value throughout the protocol model.
The synchronized PRNG is modelled as an infinite stream of clear values
together with a read position; `PRNG.get` returns the value at the
current position and advances the position, mirroring
`synchronized_prng.get<typename T::clear>()`.  Fallible operations
(unpacking past the end of an `octetStream`, reading from an empty
buffer) are modelled with `Option`.
-/

namespace PPMLAC

/-- A pseudorandom stream with a read position: each `get` call returns
the next value of the stream.  Both parties hold an identical stream
after `basic_setup`; synchrony means equal positions. -/
structure PRNG (R : Type) where
  stream : Nat → R
  pos : Nat

/-- Draw one value: return the current stream value and advance. -/
def PRNG.get {R : Type} (g : PRNG R) : R × PRNG R :=
  (g.stream g.pos, ⟨g.stream, g.pos + 1⟩)

variable {R : Type} [CommRing R]

/-- Party 0's (Alice's) branch of `PPMLACProtocol::exchange`
(PPMLAC_protocol.h lines 112-135): for each queued pair `(x, y)` she
draws `r1`, `r2`, `q1` from the synchronized PRNG, packs the masked pair
`(x - r1, y - r2)` for sending, and pushes `q1` as her result share.
Returns (packed message, result shares, final PRNG state). -/
def aliceExchange : List (R × R) → PRNG R → List (R × R) × List R × PRNG R
  | [], g => ([], [], g)
  | (x, y) :: rest, g =>
      let r1 := g.get.1
      let g1 := g.get.2
      let r2 := g1.get.1
      let g2 := g1.get.2
      let q1 := g2.get.1
      let g3 := g2.get.2
      let rest' := aliceExchange rest g3
      ((x - r1, y - r2) :: rest'.1, q1 :: rest'.2.1, rest'.2.2)

/-- Party 1's (Bob's) branch of `PPMLACProtocol::exchange`
(PPMLAC_protocol.h lines 137-166): for each queued pair `(x, y)` he
draws `r1`, `r2`, `q1` from his mirror of the synchronized PRNG, unpacks
the masked pair `(d, e)` from the received stream, and pushes
`(x + d + r1) * (y + e + r2) - q1` as his result share (the source
computes `u = x + d`, `v = y + e`, then `(u + r1) * (v + r2) - q1`).
Unpacking past the end of the received stream is an error
(`octetStream` throws), modelled by `none`. -/
def bobExchange : List (R × R) → List (R × R) → PRNG R → Option (List R × PRNG R)
  | [], _, g => some ([], g)
  | (x, y) :: rest, msgs, g =>
      let r1 := g.get.1
      let g1 := g.get.2
      let r2 := g1.get.1
      let g2 := g1.get.2
      let q1 := g2.get.1
      let g3 := g2.get.2
      match msgs with
      | [] => none
      | (d, e) :: ms =>
          match bobExchange rest ms g3 with
          | none => none
          | some (res, gFin) =>
              some (((x + d + r1) * (y + e + r2) - q1) :: res, gFin)

/-- Per-entry true product of the reconstructed operands: party 0 holds
`(p.1, p.2)`, party 1 holds `(q.1, q.2)`, so the secret operands are
`p.1 + q.1` and `p.2 + q.2`. -/
def trueProduct (p q : R × R) : R := (p.1 + q.1) * (p.2 + q.2)

/-- The value party 0's `exchange` pushes for batch entry `i`: the third
stream value drawn in iteration `i` (its `q1`). -/
def aliceResultsSpec (n : Nat) (g : PRNG R) : List R :=
  (List.range n).map (fun i => g.stream (g.pos + 3 * i + 2))

/-- The value party 1's `exchange` pushes for batch entry `i`, expressed
directly from the `i`-th prepared pair, the `i`-th received masked pair
and the stream values drawn in iteration `i`. -/
def bobEntryAt (ps msgs : List (R × R)) (g : PRNG R) (i : Nat) : R :=
  ((ps.getD i (0, 0)).1 + (msgs.getD i (0, 0)).1 + g.stream (g.pos + 3 * i)) *
      ((ps.getD i (0, 0)).2 + (msgs.getD i (0, 0)).2 + g.stream (g.pos + 3 * i + 1)) -
    g.stream (g.pos + 3 * i + 2)

/-- Mutable state of `PPMLACProtocol`: the operand buffers `x_vec`,
`y_vec` filled by `prepare_mul` and the output buffer `results` filled
by `exchange` and drained by `finalize_mul`. -/
structure MulState (R : Type) where
  x_vec : List R
  y_vec : List R
  results : List R
deriving DecidableEq

/-- `PPMLACProtocol::init_mul`: clear all buffers. -/
def init_mul (R : Type) : MulState R := ⟨[], [], []⟩

/-- `PPMLACProtocol::prepare_mul`: store the two operand shares. -/
def prepare_mul (st : MulState R) (x y : R) : MulState R :=
  ⟨st.x_vec ++ [x], st.y_vec ++ [y], st.results⟩

/-- `PPMLACProtocol::finalize_mul`: `results.front()` followed by
`results.erase(results.begin())`.  The source performs no emptiness
check; `std::vector::front` on an empty vector is undefined behaviour,
modelled by `none`. -/
def finalize_mul (st : MulState R) : Option (R × MulState R) :=
  match st.results with
  | [] => none
  | r :: rest => some (r, ⟨st.x_vec, st.y_vec, rest⟩)

/-- `exchange()` as run by party 0 on the protocol state: the queued
pairs are `x_vec` zipped with `y_vec`; returns the sent message, the
updated state and the PRNG state. -/
def exchangeP0 (st : MulState R) (g : PRNG R) : List (R × R) × MulState R × PRNG R :=
  ((aliceExchange (st.x_vec.zip st.y_vec) g).1,
   ⟨st.x_vec, st.y_vec, st.results ++ (aliceExchange (st.x_vec.zip st.y_vec) g).2.1⟩,
   (aliceExchange (st.x_vec.zip st.y_vec) g).2.2)

/-- `exchange()` as run by party 1 on the protocol state, receiving the
message `msgs` sent by party 0. -/
def exchangeP1 (st : MulState R) (msgs : List (R × R)) (g : PRNG R) :
    Option (MulState R × PRNG R) :=
  match bobExchange (st.x_vec.zip st.y_vec) msgs g with
  | none => none
  | some (res, gFin) => some (⟨st.x_vec, st.y_vec, st.results ++ res⟩, gFin)

/-- The state after `init_mul` followed by one `prepare_mul` call per
pair of `ps`, in order. -/
def prepared (ps : List (R × R)) : MulState R :=
  ps.foldl (fun st p => prepare_mul st p.1 p.2) (init_mul R)

/-- The values returned by `n` successive `finalize_mul` calls; `none`
if any call hits an empty result buffer. -/
def collectFinalizes : MulState R → Nat → Option (List R)
  | _, 0 => some []
  | st, n + 1 =>
      match finalize_mul st with
      | none => none
      | some (r, st2) =>
          match collectFinalizes st2 n with
          | none => none
          | some rs => some (r :: rs)

/-- State of `PPMLACOutput` (from `MAC_Check_Base`): the queued secret
shares and the list of opened values. -/
structure OutputState (R : Type) where
  secrets : List R
  values : List R
deriving DecidableEq

/-- The reconstruction loop of `PPMLACOutput::exchange`
(PPMLAC_protocol.h lines 49-55): for each queued secret, unpack one
share from the received stream and sum; running out of received data is
an unpack error, modelled by `none`; excess received data is ignored. -/
def outputReconstruct : List R → List R → Option (List R)
  | [], _ => some []
  | _ :: _, [] => none
  | s :: ss, o :: os =>
      match outputReconstruct ss os with
      | none => none
      | some vs => some ((s + o) :: vs)

/-- `PPMLACOutput::exchange` (PPMLAC_protocol.h lines 30-59), with the
network round abstracted to the list of shares received from the other
party: each reconstructed value `secrets[i] + other_share` is appended
to `values`, then `secrets` is cleared. -/
def outputExchange (st : OutputState R) (received : List R) : Option (OutputState R) :=
  match outputReconstruct st.secrets received with
  | none => none
  | some vs => some ⟨[], st.values ++ vs⟩

/-- State of `PPMLACInput` for the contributing party: its queued own
shares (`my_shares[my_num]`) and the queued masked values to transmit
(`masked_values[my_num]`). -/
structure InputState (R : Type) where
  my_shares : List R
  masked_values : List R
deriving DecidableEq

/-- `PPMLACInput::add_mine` (PPMLAC_protocol.h lines 215-225): draw a
fresh random mask `r` from the local PRNG, push the share `T(r)` and the
masked value `input - r`. -/
def add_mine (st : InputState R) (input : R) (g : PRNG R) : InputState R × PRNG R :=
  (⟨st.my_shares ++ [g.get.1], st.masked_values ++ [input - g.get.1]⟩, g.get.2)

/-- `PPMLACInput::finalize_other` (PPMLAC_protocol.h lines 286-299):
with the buffered input stream modelled as a list of masked values, an
empty buffer is an error (`runtime_error`), otherwise the next masked
value is unpacked and adopted directly as the local share
(`target = T(masked_value)`). -/
def finalize_other (buffered : List R) : Option (R × List R) :=
  match buffered with
  | [] => none
  | m :: rest => some (m, rest)

/-- `PPMLACPrep::buffer_triples` (PPMLAC_prep.h lines 173-176): always
`throw runtime_error("no triples")`, modelled as `Except.error`. -/
def buffer_triples (R : Type) : Except String (List (R × R × R)) :=
  Except.error "no triples"

/-- The byte values of the 16-byte string "test_seed_123456" that the
live code of `PPMLACPrep::basic_setup` uses as the PRNG seed. -/
def fixedSeedBytes : List Nat :=
  [116, 101, 115, 116, 95, 115, 101, 101, 100, 95, 49, 50, 51, 52, 53, 54]

/-- The seed that `PPMLACPrep::basic_setup` (PPMLAC_prep.h lines
134-153) installs into the synchronized PRNG of the calling party.  The
key-exchange steps are commented out in the source; the live code uses
the fixed string "test_seed_123456" for every party.  `myNum` is the
calling party's number and the contribution arguments stand for the
values the spec says the parties contribute and exchange; the live code
uses none of them. -/
def basicSetupSeed (myNum : Nat) (senderContribution receiverContribution : List Nat) :
    List Nat :=
  fixedSeedBytes

/-- Little-endian fixed-width encoding of a clear value into `w` bytes.
Modelled from the spec: the ClearValue fixed-width serialization
(`gfp`/`gf2n` `pack`, delegated to by `PPMLACShare::pack`), whose
implementation is not among the provided sources: a value serializes to
exactly `size()` bytes, with no length prefix and no framing. -/
def natToBytes : Nat → Nat → List (Fin 256)
  | 0, _ => []
  | w + 1, v => ⟨v % 256, Nat.mod_lt v (by omega)⟩ :: natToBytes w (v / 256)

/-- Little-endian decoding of a byte list into a natural number.
Modelled from the spec: the ClearValue fixed-width deserialization
(`gfp`/`gf2n` `unpack`, delegated to by `PPMLACShare::unpack`). -/
def bytesToNat : List (Fin 256) → Nat
  | [] => 0
  | b :: bs => b.val + 256 * bytesToNat bs

/-- `PPMLACShare` (PPMLAC_share.h): a share holds exactly one clear
value; the clear domain of byte width `w` is modelled as `Fin (256 ^ w)`. -/
structure PPMLACShare (w : Nat) where
  value : Fin (256 ^ w)
deriving DecidableEq

/-- `PPMLACShare::size` (PPMLAC_share.h lines 240-243): the byte size of
the underlying clear type. -/
def PPMLACShare.size (w : Nat) : Nat := w

/-- `PPMLACShare::pack` (PPMLAC_share.h lines 319-321): append the
value's fixed-width serialization to the octet stream. -/
def PPMLACShare.pack {w : Nat} (s : PPMLACShare w) (os : List (Fin 256)) : List (Fin 256) :=
  os ++ natToBytes w s.value.val

/-- `PPMLACShare::unpack` (PPMLAC_share.h lines 325-327): consume
exactly `size()` bytes from the front of the octet stream and decode
them; consuming past the end of the stream is an error, modelled by
`none`. -/
def PPMLACShare.unpack (w : Nat) (os : List (Fin 256)) :
    Option (PPMLACShare w × List (Fin 256)) :=
  if h : w ≤ os.length then
    some (⟨⟨bytesToNat (os.take w), by
      have key : ∀ l : List (Fin 256), bytesToNat l < 256 ^ l.length := by
        intro l
        induction l with
        | nil => simp [bytesToNat]
        | cons b bs ih =>
          simp only [bytesToNat, List.length_cons, pow_succ]
          have hb := b.isLt
          omega
      have hlt := key (os.take w)
      rwa [List.length_take, Nat.min_eq_left h] at hlt⟩⟩, os.drop w)
  else none

/-- A concrete synchronized stream over `ZMod 97` used to evaluate the
protocol in witnesses: stream value `k + 1` at position `k`, position
`0`. -/
def samplePrng : PRNG (ZMod 97) := ⟨fun k => (k : ZMod 97) + 1, 0⟩

/-! ## Theorems -/

@[simp]
theorem PRNG.get_fst {S : Type} (g : PRNG S) : g.get.1 = g.stream g.pos := rfl

@[simp]
theorem PRNG.get_snd {S : Type} (g : PRNG S) : g.get.2 = ⟨g.stream, g.pos + 1⟩ := rfl

/-- C1: for every batch of operand pairs and synchronized PRNG states,
the sum of party 0's and party 1's result shares for each batch entry
equals the product of the reconstructed operands. -/
theorem c1_two_party_mul_correctness (ps0 ps1 : List (R × R)) (g : PRNG R)
    (h : ps0.length = ps1.length) :
    Option.map (fun pr => List.zipWith (fun a b => a + b) (aliceExchange ps0 g).2.1 pr.1)
        (bobExchange ps1 (aliceExchange ps0 g).1 g)
      = some (List.zipWith trueProduct ps0 ps1) := by
  induction ps0 generalizing ps1 g with
  | nil =>
    cases ps1 with
    | nil => simp [aliceExchange, bobExchange]
    | cons q qs => simp at h
  | cons p t0 ih =>
    cases ps1 with
    | nil => simp at h
    | cons q t1 =>
      obtain ⟨x0, y0⟩ := p
      obtain ⟨x1, y1⟩ := q
      simp only [List.length_cons, Nat.succ.injEq] at h
      have ihh := ih t1 ⟨g.stream, g.pos + 1 + 1 + 1⟩ h
      simp only [aliceExchange, bobExchange, PRNG.get] at ihh ⊢
      cases hB : bobExchange t1 (aliceExchange t0 ⟨g.stream, g.pos + 1 + 1 + 1⟩).1
          ⟨g.stream, g.pos + 1 + 1 + 1⟩ with
      | none => rw [hB] at ihh; simp at ihh
      | some pr =>
        obtain ⟨res, gFin⟩ := pr
        rw [hB] at ihh
        simp only [Option.map_some'] at ihh
        have hres := Option.some.inj ihh
        simp only [hB, Option.map_some', List.zipWith_cons_cons]
        rw [hres]
        congr 2
        simp only [trueProduct]
        ring

/-- Witness for C1, the spec's concrete scenario mod 97: `x` shared as
`(20, 90)` (secret 13), `y` shared as `(4, 1)` (secret 5); the result
shares sum to `65 = 13 * 5`. -/
theorem c1_witness :
    Option.map
        (fun pr => List.zipWith (fun a b => a + b)
          (aliceExchange [((20 : ZMod 97), 4)] samplePrng).2.1 pr.1)
        (bobExchange [((90 : ZMod 97), 1)]
          (aliceExchange [((20 : ZMod 97), 4)] samplePrng).1 samplePrng)
      = some [(65 : ZMod 97)] :=
  (c1_two_party_mul_correctness [((20 : ZMod 97), 4)] [((90 : ZMod 97), 1)] samplePrng
      rfl).trans (by decide)

/-- C2: if the receiver draws one extra value from its mirrored stream
before running a multiplication batch while the sender does not, then
for some stream and operand shares the sum of the two parties' result
shares differs from the true product: stream synchrony is load-bearing. -/
theorem c2_desynchronization_breaks_correctness :
    ∃ (g : PRNG (ZMod 97)) (ps0 ps1 : List (ZMod 97 × ZMod 97)),
      ps0.length = ps1.length ∧
      Option.map (fun pr => List.zipWith (fun a b => a + b) (aliceExchange ps0 g).2.1 pr.1)
          (bobExchange ps1 (aliceExchange ps0 g).1 g.get.2)
        ≠ some (List.zipWith trueProduct ps0 ps1) :=
  ⟨samplePrng, [(0, 0)], [(1, 1)], rfl, by decide⟩

theorem aliceExchange_results_eq (ps : List (R × R)) (g : PRNG R) :
    (aliceExchange ps g).2.1 = aliceResultsSpec ps.length g := by
  induction ps generalizing g with
  | nil => simp [aliceExchange, aliceResultsSpec]
  | cons p t ih =>
    obtain ⟨x, y⟩ := p
    simp only [aliceExchange, PRNG.get, List.length_cons]
    rw [ih ⟨g.stream, g.pos + 1 + 1 + 1⟩]
    simp only [aliceResultsSpec, List.range_succ_eq_map, List.map_cons, List.map_map]
    congr 1
    · apply List.map_congr_left
      intro i _
      simp only [Function.comp_apply]
      congr 1
      omega

/-- C10: party 0's result shares depend only on the PRNG state and the
number of queued pairs: two equal-length batches from the same stream
state produce identical result shares, and each result share is the
fresh third stream draw `q1` of its iteration. -/
theorem c10_sender_results_operand_independent (ps qs : List (R × R)) (g : PRNG R)
    (h : ps.length = qs.length) :
    (aliceExchange ps g).2.1 = (aliceExchange qs g).2.1 ∧
    (aliceExchange ps g).2.1 = aliceResultsSpec ps.length g := by
  constructor
  · rw [aliceExchange_results_eq, aliceExchange_results_eq, h]
  · exact aliceExchange_results_eq ps g

/-- Witness for C10: two different single-pair batches over `ZMod 97`
yield the same party-0 result share, the third stream value. -/
theorem c10_witness :
    ([((5 : ZMod 97), 6)].length = [((7 : ZMod 97), 8)].length) ∧
      ((aliceExchange [((5 : ZMod 97), 6)] samplePrng).2.1
          = (aliceExchange [((7 : ZMod 97), 8)] samplePrng).2.1 ∧
        (aliceExchange [((5 : ZMod 97), 6)] samplePrng).2.1
          = aliceResultsSpec [((5 : ZMod 97), 6)].length samplePrng) :=
  ⟨rfl, c10_sender_results_operand_independent [((5 : ZMod 97), 6)] [((7 : ZMod 97), 8)]
      samplePrng rfl⟩

/-- C9 (code observation): `finalize_mul` on a state whose result buffer
is empty has no defined result: the source calls `std::vector::front`
and `erase` on an empty vector with no check, which is undefined
behaviour rather than a guaranteed failure; the embedding assigns it
`none`. -/
theorem c9_finalize_mul_on_empty (st : MulState R) (h : st.results = []) :
    finalize_mul st = none := by
  cases st with
  | mk xs ys rs =>
    simp only at h
    subst h
    rfl

/-- Witness for C9: `finalize_mul` straight after `init_mul`, with zero
`prepare_mul` calls, at the concrete empty state. -/
theorem c9_witness : finalize_mul (init_mul (ZMod 97)) = none :=
  c9_finalize_mul_on_empty (init_mul (ZMod 97)) rfl

/-- C7: every request for multiplication triples from the PPMLAC
preprocessing fails with the error "no triples"; it never produces
triples. -/
theorem c7_buffer_triples_always_fails (S : Type) (ts : List (S × S × S)) :
    buffer_triples S = Except.error "no triples" ∧ buffer_triples S ≠ Except.ok ts :=
  ⟨rfl, by simp [buffer_triples]⟩

/-- C8 counterexample: the claim asserts that some two runs with
different party contributions produce different stream seeds; in the
live code the seed is the fixed constant "test_seed_123456", so no two
runs (whatever any party contributes, whichever party runs it) ever
differ in seed. -/
theorem c8_counterexample :
    ¬ ∃ (p1 p2 : Nat) (s1 r1 s2 r2 : List Nat),
        (s1 ≠ s2 ∨ r1 ≠ r2) ∧ basicSetupSeed p1 s1 r1 ≠ basicSetupSeed p2 s2 r2 := by
  rintro ⟨p1, p2, s1, r1, s2, r2, hc, hdiff⟩
  exact hdiff rfl

/-- C8 as amended: `basic_setup` ignores all party contributions and
installs the same fixed 16-byte seed (the bytes of "test_seed_123456")
into both parties' synchronized PRNGs in every run. -/
theorem c8_fixed_seed (p1 p2 : Nat) (s1 r1 s2 r2 : List Nat) :
    basicSetupSeed p1 s1 r1 = fixedSeedBytes ∧
    basicSetupSeed p1 s1 r1 = basicSetupSeed p2 s2 r2 ∧
    fixedSeedBytes.length = 16 :=
  ⟨rfl, rfl, rfl⟩

/-- C6: `add_mine` sets the contributing party's own share to the fresh
mask `r` drawn from its local randomness source and queues
`input - r` for transmission; `finalize_other` adopts the transmitted
masked value directly as the other party's share; the two shares sum to
the private input. -/
theorem c6_input_sharing (st : InputState R) (input : R) (g : PRNG R) (rest : List R) :
    (add_mine st input g).1.my_shares = st.my_shares ++ [g.stream g.pos] ∧
    (add_mine st input g).1.masked_values = st.masked_values ++ [input - g.stream g.pos] ∧
    finalize_other ((input - g.stream g.pos) :: rest)
      = some (input - g.stream g.pos, rest) ∧
    g.stream g.pos + (input - g.stream g.pos) = input :=
  ⟨rfl, rfl, rfl, by ring⟩

theorem outputReconstruct_eq (ss : List R) :
    ∀ os : List R, ss.length ≤ os.length →
      outputReconstruct ss os = some (List.zipWith (fun a b => a + b) ss os) := by
  induction ss with
  | nil =>
    intro os _
    cases os <;> rfl
  | cons s t ih =>
    intro os h
    cases os with
    | nil => simp at h
    | cons o ot =>
      simp only [List.length_cons, Nat.add_le_add_iff_right] at h
      simp [outputReconstruct, ih ot h]

/-- C5: after the opening protocol's `exchange`, each opened value, in
queue order, is the sum of the local fragment and the remote fragment,
appended to the results list, and the queue of pending secrets is
empty. -/
theorem c5_output_exchange_reconstructs (secrets values received : List R)
    (h : secrets.length ≤ received.length) :
    outputExchange (⟨secrets, values⟩ : OutputState R) received
      = some ⟨[], values ++ List.zipWith (fun a b => a + b) secrets received⟩ := by
  simp [outputExchange, outputReconstruct_eq secrets received h]

/-- Witness for C5 over `ZMod 97`: secrets `[1, 2]` plus received
fragments `[10, 20]` append opened values `[11, 22]` after the existing
`[5]`, and clear the queue. -/
theorem c5_witness :
    outputExchange (⟨[(1 : ZMod 97), 2], [5]⟩ : OutputState (ZMod 97)) [10, 20]
      = some ⟨[], [5, 11, 22]⟩ :=
  (c5_output_exchange_reconstructs [(1 : ZMod 97), 2] [5] [10, 20] (by decide)).trans
    (by decide)

theorem bobEntryAt_succ (p m : R × R) (ps ms : List (R × R)) (g : PRNG R) (i : Nat) :
    bobEntryAt (p :: ps) (m :: ms) g (i + 1)
      = bobEntryAt ps ms ⟨g.stream, g.pos + 1 + 1 + 1⟩ i := by
  simp only [bobEntryAt, List.getD_cons_succ]
  have h1 : g.pos + 3 * (i + 1) = g.pos + 1 + 1 + 1 + 3 * i := by omega
  rw [h1]

theorem bobExchange_entries (ps : List (R × R)) :
    ∀ (msgs : List (R × R)) (g : PRNG R), ps.length = msgs.length →
      ∃ res gFin, bobExchange ps msgs g = some (res, gFin) ∧
        res.length = ps.length ∧
        ∀ i, i < ps.length → res.getD i 0 = bobEntryAt ps msgs g i := by
  induction ps with
  | nil =>
    intro msgs g _
    exact ⟨[], g, rfl, rfl, fun i hi => absurd hi (Nat.not_lt_zero i)⟩
  | cons p t ih =>
    intro msgs g h
    cases msgs with
    | nil => simp at h
    | cons m ms =>
      obtain ⟨x, y⟩ := p
      obtain ⟨d, e⟩ := m
      simp only [List.length_cons, Nat.succ.injEq] at h
      obtain ⟨res, gFin, hB, hlen, hidx⟩ := ih ms ⟨g.stream, g.pos + 1 + 1 + 1⟩ h
      refine ⟨((x + d + g.stream g.pos) * (y + e + g.stream (g.pos + 1))
          - g.stream (g.pos + 1 + 1)) :: res, gFin, ?_, ?_, ?_⟩
      · simp only [bobExchange, PRNG.get, hB]
      · simp [hlen]
      · intro i hi
        cases i with
        | zero =>
          simp only [List.getD_cons_zero, bobEntryAt, List.getD_cons_zero]
          norm_num
        | succ j =>
          simp only [List.getD_cons_succ]
          rw [bobEntryAt_succ]
          exact hidx j (by simpa using hi)

theorem prepare_foldl (ps : List (R × R)) :
    ∀ st : MulState R,
      ps.foldl (fun st p => prepare_mul st p.1 p.2) st
        = ⟨st.x_vec ++ ps.map Prod.fst, st.y_vec ++ ps.map Prod.snd, st.results⟩ := by
  induction ps with
  | nil =>
    intro st
    cases st
    simp
  | cons p t ih =>
    intro st
    simp only [List.foldl_cons, List.map_cons]
    rw [ih]
    simp [prepare_mul]

theorem zip_map_fst_snd_self (l : List (R × R)) :
    (l.map Prod.fst).zip (l.map Prod.snd) = l := by
  induction l with
  | nil => rfl
  | cons p t ih => simp [ih]

theorem collectFinalizes_results (rs : List R) :
    ∀ xs ys : List R,
      collectFinalizes (⟨xs, ys, rs⟩ : MulState R) rs.length = some rs := by
  induction rs with
  | nil => intro xs ys; rfl
  | cons r t ih =>
    intro xs ys
    simp only [List.length_cons, collectFinalizes, finalize_mul, ih xs ys]

/-- C3: after `init_mul`, `N` `prepare_mul` calls and `exchange`, there
is exactly one result share per `prepare_mul` call, the `i`-th result is
computed from the `i`-th prepared pair, and the `N` `finalize_mul` calls
return the result list in exactly that order — strict FIFO, one-to-one,
for both parties. -/
theorem c3_finalize_fifo (ps msgs : List (R × R)) (g0 g1 : PRNG R)
    (h : ps.length = msgs.length) :
    (∃ st gFin, exchangeP1 (prepared ps) msgs g1 = some (st, gFin) ∧
        st.results.length = ps.length ∧
        (∀ i, i < ps.length → st.results.getD i 0 = bobEntryAt ps msgs g1 i) ∧
        collectFinalizes st ps.length = some st.results) ∧
    ((exchangeP0 (prepared ps) g0).2.1.results = aliceResultsSpec ps.length g0 ∧
      collectFinalizes (exchangeP0 (prepared ps) g0).2.1 ps.length
        = some (exchangeP0 (prepared ps) g0).2.1.results) := by
  have hprep : (prepared ps : MulState R)
      = ⟨ps.map Prod.fst, ps.map Prod.snd, []⟩ := by
    simp [prepared, prepare_foldl, init_mul]
  have hzip : ((prepared ps : MulState R).x_vec).zip (prepared ps).y_vec = ps := by
    rw [hprep]
    exact zip_map_fst_snd_self ps
  constructor
  · obtain ⟨res, gFin, hB, hlen, hidx⟩ := bobExchange_entries ps msgs g1 h
    refine ⟨⟨(prepared ps).x_vec, (prepared ps).y_vec, res⟩, gFin, ?_, hlen, hidx, ?_⟩
    · simp only [exchangeP1, hprep, zip_map_fst_snd_self, hB, List.nil_append]
    · rw [← hlen]
      exact collectFinalizes_results res _ _
  · have halice : (exchangeP0 (prepared ps) g0).2.1
        = ⟨(prepared ps).x_vec, (prepared ps).y_vec, aliceResultsSpec ps.length g0⟩ := by
      simp only [exchangeP0, hprep, zip_map_fst_snd_self, aliceExchange_results_eq,
        List.nil_append, List.length_map]
    constructor
    · rw [halice]
    · rw [halice]
      generalize hg : aliceResultsSpec ps.length g0 = rs
      have h3 : ps.length = rs.length := by
        rw [← hg]
        simp [aliceResultsSpec]
      rw [h3]
      exact collectFinalizes_results rs _ _

/-- Witness for C3 over `ZMod 97`: a two-pair batch; both conjuncts
instantiated at concrete lists and stream. -/
theorem c3_witness :
    ([((2 : ZMod 97), 3), (4, 5)].length = [((6 : ZMod 97), 7), (8, 9)].length) ∧
      ((∃ st gFin,
          exchangeP1 (prepared [((2 : ZMod 97), 3), (4, 5)]) [((6 : ZMod 97), 7), (8, 9)]
              samplePrng = some (st, gFin) ∧
          st.results.length = [((2 : ZMod 97), 3), (4, 5)].length ∧
          (∀ i, i < [((2 : ZMod 97), 3), (4, 5)].length →
            st.results.getD i 0
              = bobEntryAt [((2 : ZMod 97), 3), (4, 5)] [((6 : ZMod 97), 7), (8, 9)]
                  samplePrng i) ∧
          collectFinalizes st [((2 : ZMod 97), 3), (4, 5)].length = some st.results) ∧
        ((exchangeP0 (prepared [((2 : ZMod 97), 3), (4, 5)]) samplePrng).2.1.results
            = aliceResultsSpec [((2 : ZMod 97), 3), (4, 5)].length samplePrng ∧
          collectFinalizes (exchangeP0 (prepared [((2 : ZMod 97), 3), (4, 5)])
              samplePrng).2.1 [((2 : ZMod 97), 3), (4, 5)].length
            = some (exchangeP0 (prepared [((2 : ZMod 97), 3), (4, 5)])
                samplePrng).2.1.results)) :=
  ⟨rfl, c3_finalize_fifo [((2 : ZMod 97), 3), (4, 5)] [((6 : ZMod 97), 7), (8, 9)]
      samplePrng samplePrng rfl⟩

theorem natToBytes_length : ∀ w v : Nat, (natToBytes w v).length = w := by
  intro w
  induction w with
  | zero => intro v; rfl
  | succ u ih =>
    intro v
    simp [natToBytes, ih]

theorem bytesToNat_natToBytes : ∀ w v : Nat, v < 256 ^ w → bytesToNat (natToBytes w v) = v := by
  intro w
  induction w with
  | zero =>
    intro v hv
    have hz : v = 0 := by simpa using Nat.lt_one_iff.mp (by simpa using hv)
    subst hz
    rfl
  | succ u ih =>
    intro v hv
    have hdiv : v / 256 < 256 ^ u := by
      refine (Nat.div_lt_iff_lt_mul (by norm_num)).mpr ?_
      have hp : 256 ^ (u + 1) = 256 ^ u * 256 := pow_succ 256 u
      omega
    simp only [natToBytes, bytesToNat, ih (v / 256) hdiv]
    omega

/-- C4: for every `PPMLACShare` value, `pack` appends exactly `size()`
bytes (fixed width, no length prefix) and `unpack` consumes exactly
those `size()` bytes and returns the original value, leaving the rest of
the stream untouched: `unpack` is the exact inverse of `pack`. -/
theorem c4_pack_unpack_roundtrip (w : Nat) (v : PPMLACShare w) (os rest : List (Fin 256)) :
    (v.pack os).length = os.length + PPMLACShare.size w ∧
    PPMLACShare.unpack w (v.pack [] ++ rest) = some (v, rest) := by
  obtain ⟨⟨vv, hv⟩⟩ := v
  constructor
  · simp [PPMLACShare.pack, natToBytes_length, PPMLACShare.size]
  · have hlen : (natToBytes w vv).length = w := natToBytes_length w vv
    have hle : w ≤ (natToBytes w vv ++ rest).length := by
      simp [hlen]
    simp only [PPMLACShare.pack, List.nil_append, PPMLACShare.unpack, dif_pos hle]
    have htake : (natToBytes w vv ++ rest).take w = natToBytes w vv :=
      List.take_left' hlen
    have hdrop : (natToBytes w vv ++ rest).drop w = rest :=
      List.drop_left' hlen
    simp only [htake, hdrop, Option.some.injEq, Prod.mk.injEq, and_true]
    have hval : bytesToNat (natToBytes w vv) = vv := bytesToNat_natToBytes w vv hv
    simp [PPMLACShare.mk.injEq, Fin.mk.injEq, hval]
